import Mathlib

/-!
Shallow embedding of `src/main.py` (crypto-taxes): the lot-matching engine
`process` (lines 25-75) together with the per-sell matching loop (lines 56-68),
the per-asset grouping and sorting (lines 27-34), and the grand total
(line 136).  Amounts and prices are Python floats in the source; they are
modelled as rationals.  Dates are modelled as naturals (timestamps, ordered).
-/

namespace CryptoTaxes

/-- The `action` field of a transaction record: `"Buy"` or `"Sell"`
(group `action` of `_reg_market`, src/main.py line 12). -/
inductive Action
  | Buy
  | Sell
deriving DecidableEq

/-- The string the source stores in the `action` column (pandas sorts this
column lexicographically). -/
def Action.str : Action → String
  | .Buy => "Buy"
  | .Sell => "Sell"

/-- One parsed transaction record, with the fields the engine reads
(src/main.py lines 42-45): `action`, `amount`, `asset`, `price`, `date`. -/
structure Tx where
  action : Action
  amount : ℚ
  asset : String
  price : ℚ
  date : ℕ
deriving DecidableEq

/-- An entry of the Python `max_heap`: the pair `(-price, amount)` pushed at
src/main.py line 49 (price negated so the min-heap acts as a max-heap). -/
abbrev Lot := ℚ × ℚ

/-- The order `heapq` uses on heap entries: Python tuple (lexicographic)
comparison on `(-price, amount)`. -/
def lotR (x y : Lot) : Prop := x.1 < y.1 ∨ (x.1 = y.1 ∧ x.2 ≤ y.2)

instance : DecidableRel lotR := fun x y =>
  inferInstanceAs (Decidable (x.1 < y.1 ∨ (x.1 = y.1 ∧ x.2 ≤ y.2)))

instance : IsTotal Lot lotR where
  total x y := by
    rcases lt_trichotomy x.1 y.1 with h | h | h
    · exact Or.inl (Or.inl h)
    · rcases le_total x.2 y.2 with h2 | h2
      · exact Or.inl (Or.inr ⟨h, h2⟩)
      · exact Or.inr (Or.inr ⟨h.symm, h2⟩)
    · exact Or.inr (Or.inl h)

instance : IsTrans Lot lotR where
  trans x y z hxy hyz := by
    rcases hxy with h | ⟨he, h2⟩ <;> rcases hyz with h' | ⟨he', h2'⟩
    · exact Or.inl (h.trans h')
    · exact Or.inl (he' ▸ h)
    · exact Or.inl (he ▸ h')
    · exact Or.inr ⟨he.trans he', h2.trans h2'⟩

/-- `heapq.heappush(max_heap, x)` (src/main.py lines 49 and 68).  Python's
`heapq` is a binary min-heap; observationally a heap is the multiset of its
entries, `heappush` adds an entry and `heappop` removes and returns the least
entry under tuple comparison.  We realise this by keeping the heap as a list
sorted ascending by `lotR`, so that the head is exactly the element
`heappop` returns. -/
def heappush (h : List Lot) (x : Lot) : List Lot := List.orderedInsert lotR x h

/-- `heapq.heappop(max_heap)` (src/main.py line 57): removes and returns the
least entry; `none` when the heap is empty. -/
def heappop : List Lot → Option (Lot × List Lot)
  | [] => none
  | x :: rest => some (x, rest)

/-- Total remaining amount over all entries of a heap. -/
def heapSum (h : List Lot) : ℚ := (h.map Prod.snd).sum

/-- The per-sell matching loop, src/main.py lines 56-68:

    while (acc_amount_bought < amount) and (len(max_heap) > 0):
        price_bought, amount_bought = heapq.heappop(max_heap)
        price_bought = -price_bought
        amount_needed = min(amount - acc_amount_bought, amount_bought)
        acc_total_bought += price_bought * amount_needed
        acc_amount_bought += amount_bought
        amount_remain = amount_bought - amount_needed
        if amount_remain > 0:
            heapq.heappush(max_heap, (-price_bought, amount_remain))

The recursion is driven by a fuel counter; `heap.length + 1` fuel always
suffices (proved below), so the caller passes exactly that.  Returns the
final `(max_heap, acc_amount_bought, acc_total_bought)`. -/
def sellLoop (amount : ℚ) : ℕ → List Lot → ℚ → ℚ → List Lot × ℚ × ℚ
  | 0, max_heap, acc_amount_bought, acc_total_bought =>
      (max_heap, acc_amount_bought, acc_total_bought)
  | fuel + 1, max_heap, acc_amount_bought, acc_total_bought =>
    if acc_amount_bought < amount then
      match max_heap with
      | [] => (max_heap, acc_amount_bought, acc_total_bought)
      | (neg_price, amount_bought) :: rest =>
        let price_bought := -neg_price
        let amount_needed := min (amount - acc_amount_bought) amount_bought
        let acc_total' := acc_total_bought + price_bought * amount_needed
        let acc_amount' := acc_amount_bought + amount_bought
        let amount_remain := amount_bought - amount_needed
        let max_heap' :=
          if amount_remain > 0 then heappush rest (-price_bought, amount_remain) else rest
        sellLoop amount fuel max_heap' acc_amount' acc_total'
    else (max_heap, acc_amount_bought, acc_total_bought)

/-- `sellLoop` instrumented with a ghost accumulator (last component): the
total quantity actually removed from the heap, i.e. the sum of the
`amount_needed` values of the iterations.  Mirrors `sellLoop` line by line;
the projection onto the first three components is proved equal to
`sellLoop` below. -/
def sellLoopC (amount : ℚ) : ℕ → List Lot → ℚ → ℚ → ℚ → List Lot × ℚ × ℚ × ℚ
  | 0, max_heap, acc_amount_bought, acc_total_bought, consumed =>
      (max_heap, acc_amount_bought, acc_total_bought, consumed)
  | fuel + 1, max_heap, acc_amount_bought, acc_total_bought, consumed =>
    if acc_amount_bought < amount then
      match max_heap with
      | [] => (max_heap, acc_amount_bought, acc_total_bought, consumed)
      | (neg_price, amount_bought) :: rest =>
        let price_bought := -neg_price
        let amount_needed := min (amount - acc_amount_bought) amount_bought
        let acc_total' := acc_total_bought + price_bought * amount_needed
        let acc_amount' := acc_amount_bought + amount_bought
        let amount_remain := amount_bought - amount_needed
        let max_heap' :=
          if amount_remain > 0 then heappush rest (-price_bought, amount_remain) else rest
        sellLoopC amount fuel max_heap' acc_amount' acc_total' (consumed + amount_needed)
    else (max_heap, acc_amount_bought, acc_total_bought, consumed)

/-- Processing one record of an asset's sorted sequence (src/main.py
lines 47-71).  State: the asset's `max_heap` and the asset's current entry in
the `profits` dict (`none` while no Sell has been processed).  A Buy pushes
`(-price, amount)`; a Sell runs the matching loop from
`acc_amount_bought = acc_total_bought = 0` and overwrites the profit entry
with `amount*price - acc_total_bought`. -/
def step : List Lot × Option ℚ → Tx → List Lot × Option ℚ
  | (max_heap, prof), t =>
    match t.action with
    | .Buy => (heappush max_heap (-t.price, t.amount), prof)
    | .Sell =>
      let r := sellLoop t.amount (max_heap.length + 1) max_heap 0 0
      (r.1, some (t.amount * t.price - r.2.2))

/-- `step` instrumented with the ghost "total quantity removed from lots"
accumulator, via `sellLoopC`. -/
def stepC : List Lot × Option ℚ × ℚ → Tx → List Lot × Option ℚ × ℚ
  | (max_heap, prof, consumed), t =>
    match t.action with
    | .Buy => (heappush max_heap (-t.price, t.amount), prof, consumed)
    | .Sell =>
      let r := sellLoopC t.amount (max_heap.length + 1) max_heap 0 0 0
      (r.1, some (t.amount * t.price - r.2.2.1), consumed + r.2.2.2)

/-- The sort key of `data.sort_values(by=['date','action'])`
(src/main.py line 30): lexicographic on (date, action string).  Since the
only action strings are `"Buy" < "Sell"`, the pair is encoded as the single
natural `2*date + (0 for Buy, 1 for Sell)`; the encoding is proved below to
order records exactly by (date, action-string). -/
def Tx.sortKey (t : Tx) : ℕ :=
  2 * t.date + (match t.action with | .Buy => 0 | .Sell => 1)

/-- The row order pandas leaves the frame in: ascending `sortKey`. -/
def txr (a b : Tx) : Prop := a.sortKey ≤ b.sortKey

instance : DecidableRel txr := fun a b => inferInstanceAs (Decidable (a.sortKey ≤ b.sortKey))

instance : IsTotal Tx txr where
  total a b := Nat.le_total a.sortKey b.sortKey

instance : IsTrans Tx txr where
  trans _ _ _ h h' := Nat.le_trans h h'

/-- The rows `data.loc[asset]` iterated at src/main.py lines 34 and 42-45:
the asset's records, in the (date, action) order produced by
`sort_values(by=['date','action'])` on the whole frame (selecting one
asset's rows from the globally sorted frame yields that asset's records
sorted by the same key). -/
def sortedRows (records : List Tx) (asset : String) : List Tx :=
  List.insertionSort txr (records.filter (fun t => t.asset == asset))

/-- Helper for `uniqueAssets`: first-occurrence pass with a seen-list. -/
def uniqueAux : List String → List String → List String
  | [], _ => []
  | a :: rest, seen =>
    if a ∈ seen then uniqueAux rest seen else a :: uniqueAux rest (a :: seen)

/-- `data["asset"].unique()` (src/main.py line 27): the asset symbols in
first-occurrence order, without duplicates. -/
def uniqueAssets (records : List Tx) : List String :=
  uniqueAux (records.map (fun t => t.asset)) []

/-- The engine's per-asset outcome (src/main.py lines 34-72): `none` when the
asset contributes no entry to the `profits` dict — either its group is a
single row (`len(asset_data.shape) == 1`, line 37, skipped) or no Sell was
processed — otherwise the entry the dict holds at the end. -/
def assetProfit (records : List Tx) (asset : String) : Option ℚ :=
  let asset_data := sortedRows records asset
  if asset_data.length = 1 then none
  else (asset_data.foldl step ([], none)).2

/-- `process` (src/main.py lines 25-75): the final `profits` mapping as an
association list, keys in the order of `assets`.  This models the engine
once the column access `data["asset"]` at line 27 has succeeded; on a
zero-record frame that access itself fails — see `processRun`. -/
def process (records : List Tx) : List (String × ℚ) :=
  (uniqueAssets records).filterMap
    (fun asset => (assetProfit records asset).map (fun p => (asset, p)))

/-- `profits["profit"].sum()` (src/main.py line 136): the grand total. -/
def totalProfit (records : List Tx) : ℚ :=
  ((process records).map Prod.snd).sum

/-- The `process` call including the failure path of the column access
`data["asset"].unique()` at src/main.py line 27: `parse` builds the frame as
`pd.DataFrame(data)` from the list of record dicts, so the frame has an
`asset` column exactly when at least one record was parsed.  On zero records
the frame is the column-less `pd.DataFrame([])` and the access raises
`KeyError` for the key `asset`, aborting the run before any profit is
computed; otherwise the run returns the mapping `process` computes. -/
def processRun (records : List Tx) : Except String (List (String × ℚ)) :=
  if records.isEmpty then Except.error "KeyError: asset"
  else Except.ok (process records)

/-- Total Buy amount of a record sequence. -/
def buyTotal (rows : List Tx) : ℚ :=
  (rows.map (fun t => match t.action with | .Buy => t.amount | .Sell => 0)).sum

/-! ### Lemmas about the matching loop -/

theorem sellLoop_exit (amount : ℚ) (fuel : ℕ) (max_heap : List Lot) (accA accT : ℚ)
    (h : ¬ accA < amount) :
    sellLoop amount fuel max_heap accA accT = (max_heap, accA, accT) := by
  cases fuel with
  | zero => rfl
  | succ f => rw [sellLoop.eq_def]; exact if_neg h

theorem sellLoop_nil (amount : ℚ) (fuel : ℕ) (accA accT : ℚ) :
    sellLoop amount fuel [] accA accT = ([], accA, accT) := by
  cases fuel with
  | zero => rfl
  | succ f =>
    rw [sellLoop]
    by_cases h : accA < amount <;> simp [h]

theorem sellLoop_cons (amount accA accT np ab : ℚ) (rest : List Lot) (f : ℕ)
    (h : accA < amount) :
    sellLoop amount (f + 1) ((np, ab) :: rest) accA accT =
      sellLoop amount f
        (if ab - min (amount - accA) ab > 0 then
          heappush rest (np, ab - min (amount - accA) ab) else rest)
        (accA + ab) (accT + (-np) * min (amount - accA) ab) := by
  rw [sellLoop]
  simp [if_pos h, neg_neg]

/-- When the remainder pushed back is positive, the needed amount was
`amount - accA`, so the consumed counter overshoots `amount`. -/
theorem consumed_overshoots (amount accA ab : ℚ)
    (hrem : 0 < ab - min (amount - accA) ab) : ¬ accA + ab < amount := by
  have hx : min (amount - accA) ab = amount - accA := by
    rcases le_total (amount - accA) ab with hle | hle
    · exact min_eq_left hle
    · rw [min_eq_right hle] at hrem; linarith
  rw [hx] at hrem
  linarith

theorem sellLoop_fuel (amount : ℚ) :
    ∀ (fuel : ℕ) (max_heap : List Lot) (accA accT : ℚ),
      max_heap.length + 1 ≤ fuel →
      sellLoop amount fuel max_heap accA accT
        = sellLoop amount (max_heap.length + 1) max_heap accA accT := by
  intro fuel
  induction fuel with
  | zero => intro heap accA accT h; exact absurd h (by omega)
  | succ f ih =>
    intro heap accA accT hf
    by_cases hlt : accA < amount
    · match heap with
      | [] => rw [sellLoop_nil, sellLoop_nil]
      | (np, ab) :: rest =>
        rw [sellLoop_cons amount accA accT np ab rest f hlt]
        rw [show ((np, ab) :: rest).length + 1 = (rest.length + 1) + 1 from by simp]
        rw [sellLoop_cons amount accA accT np ab rest (rest.length + 1) hlt]
        by_cases hrem : ab - min (amount - accA) ab > 0
        · rw [if_pos hrem]
          have hge := consumed_overshoots amount accA ab hrem
          rw [sellLoop_exit _ _ _ _ _ hge, sellLoop_exit _ _ _ _ _ hge]
        · rw [if_neg hrem]
          have h1 : rest.length + 1 ≤ f := by
            simp only [List.length_cons] at hf; omega
          rw [ih rest _ _ h1]
    · rw [sellLoop_exit _ _ _ _ _ hlt, sellLoop_exit _ _ _ _ _ hlt]

theorem sellLoopC_exit (amount : ℚ) (fuel : ℕ) (max_heap : List Lot) (accA accT c : ℚ)
    (h : ¬ accA < amount) :
    sellLoopC amount fuel max_heap accA accT c = (max_heap, accA, accT, c) := by
  cases fuel with
  | zero => rfl
  | succ f => rw [sellLoopC.eq_def]; exact if_neg h

theorem sellLoopC_nil (amount : ℚ) (fuel : ℕ) (accA accT c : ℚ) :
    sellLoopC amount fuel [] accA accT c = ([], accA, accT, c) := by
  cases fuel with
  | zero => rfl
  | succ f =>
    rw [sellLoopC]
    by_cases h : accA < amount <;> simp [h]

theorem sellLoopC_cons (amount accA accT c np ab : ℚ) (rest : List Lot) (f : ℕ)
    (h : accA < amount) :
    sellLoopC amount (f + 1) ((np, ab) :: rest) accA accT c =
      sellLoopC amount f
        (if ab - min (amount - accA) ab > 0 then
          heappush rest (np, ab - min (amount - accA) ab) else rest)
        (accA + ab) (accT + (-np) * min (amount - accA) ab)
        (c + min (amount - accA) ab) := by
  rw [sellLoopC]
  simp [if_pos h, neg_neg]

/-- The instrumented loop computes the same heap, counter and cost basis as
the source loop. -/
theorem sellLoopC_proj (amount : ℚ) :
    ∀ (fuel : ℕ) (max_heap : List Lot) (accA accT c : ℚ),
      (sellLoopC amount fuel max_heap accA accT c).1
          = (sellLoop amount fuel max_heap accA accT).1
      ∧ (sellLoopC amount fuel max_heap accA accT c).2.1
          = (sellLoop amount fuel max_heap accA accT).2.1
      ∧ (sellLoopC amount fuel max_heap accA accT c).2.2.1
          = (sellLoop amount fuel max_heap accA accT).2.2 := by
  intro fuel
  induction fuel with
  | zero => intros; exact ⟨rfl, rfl, rfl⟩
  | succ f ih =>
    intro heap accA accT c
    by_cases hlt : accA < amount
    · match heap with
      | [] => rw [sellLoop_nil, sellLoopC_nil]; exact ⟨rfl, rfl, rfl⟩
      | (np, ab) :: rest =>
        rw [sellLoop_cons amount accA accT np ab rest f hlt,
          sellLoopC_cons amount accA accT c np ab rest f hlt]
        exact ih _ _ _ _
    · rw [sellLoop_exit _ _ _ _ _ hlt, sellLoopC_exit _ _ _ _ _ _ hlt]
      exact ⟨rfl, rfl, rfl⟩

theorem heapSum_nil : heapSum [] = 0 := rfl

theorem heapSum_cons (x : Lot) (h : List Lot) : heapSum (x :: h) = x.2 + heapSum h := by
  simp [heapSum]

theorem heapSum_heappush (h : List Lot) (x : Lot) :
    heapSum (heappush h x) = x.2 + heapSum h := by
  have hp : List.Perm (heappush h x) (x :: h) := List.perm_orderedInsert lotR x h
  have hs := (hp.map Prod.snd).sum_eq
  simpa [heapSum] using hs

/-- Each iteration of the loop removes exactly `amount_needed` from the total
amount held in the heap (the popped lot's amount leaves, the remainder comes
back); the ghost accumulator of `sellLoopC` tracks exactly that quantity. -/
theorem sellLoopC_heapSum (amount : ℚ) :
    ∀ (fuel : ℕ) (max_heap : List Lot) (accA accT c : ℚ),
      heapSum (sellLoopC amount fuel max_heap accA accT c).1
        = heapSum max_heap - ((sellLoopC amount fuel max_heap accA accT c).2.2.2 - c) := by
  intro fuel
  induction fuel with
  | zero => intros; simp [sellLoopC]
  | succ f ih =>
    intro heap accA accT c
    by_cases hlt : accA < amount
    · match heap with
      | [] => rw [sellLoopC_nil]; simp
      | (np, ab) :: rest =>
        rw [sellLoopC_cons amount accA accT c np ab rest f hlt]
        by_cases hrem : ab - min (amount - accA) ab > 0
        · rw [if_pos hrem]
          have hih := ih (heappush rest (np, ab - min (amount - accA) ab))
            (accA + ab) (accT + (-np) * min (amount - accA) ab)
            (c + min (amount - accA) ab)
          rw [hih, heapSum_heappush, heapSum_cons]
          ring
        · rw [if_neg hrem]
          have hab : min (amount - accA) ab = ab := by
            have h1 : min (amount - accA) ab ≤ ab := min_le_right _ _
            have h2 : ¬ 0 < ab - min (amount - accA) ab := hrem
            linarith
          have hih := ih rest (accA + ab) (accT + (-np) * min (amount - accA) ab)
            (c + min (amount - accA) ab)
          rw [hih, heapSum_cons, hab]
          ring
    · rw [sellLoopC_exit _ _ _ _ _ _ hlt]
      simp

/-! ### Lemmas about per-record processing -/

theorem step_buy (max_heap : List Lot) (prof : Option ℚ) (t : Tx) (h : t.action = .Buy) :
    step (max_heap, prof) t = (heappush max_heap (-t.price, t.amount), prof) := by
  simp [step, h]

theorem step_sell (max_heap : List Lot) (prof : Option ℚ) (t : Tx) (h : t.action = .Sell) :
    step (max_heap, prof) t =
      ((sellLoop t.amount (max_heap.length + 1) max_heap 0 0).1,
        some (t.amount * t.price - (sellLoop t.amount (max_heap.length + 1) max_heap 0 0).2.2)) := by
  simp [step, h]

theorem stepC_buy (max_heap : List Lot) (prof : Option ℚ) (c : ℚ) (t : Tx)
    (h : t.action = .Buy) :
    stepC (max_heap, prof, c) t = (heappush max_heap (-t.price, t.amount), prof, c) := by
  simp [stepC, h]

theorem stepC_sell (max_heap : List Lot) (prof : Option ℚ) (c : ℚ) (t : Tx)
    (h : t.action = .Sell) :
    stepC (max_heap, prof, c) t =
      ((sellLoopC t.amount (max_heap.length + 1) max_heap 0 0 0).1,
        some (t.amount * t.price - (sellLoopC t.amount (max_heap.length + 1) max_heap 0 0 0).2.2.1),
        c + (sellLoopC t.amount (max_heap.length + 1) max_heap 0 0 0).2.2.2) := by
  simp [stepC, h]

/-- The instrumented fold computes the same heap and the same profit entry as
the source fold. -/
theorem foldl_step_eq_stepC :
    ∀ (rows : List Tx) (h : List Lot) (p : Option ℚ) (c : ℚ),
      (rows.foldl step (h, p)).1 = (rows.foldl stepC (h, p, c)).1
      ∧ (rows.foldl step (h, p)).2 = (rows.foldl stepC (h, p, c)).2.1 := by
  intro rows
  induction rows with
  | nil => intros; exact ⟨rfl, rfl⟩
  | cons t rest ih =>
    intro h p c
    cases ha : t.action with
    | Buy =>
      rw [List.foldl_cons, List.foldl_cons, step_buy _ _ _ ha, stepC_buy _ _ _ _ ha]
      exact ih _ _ _
    | Sell =>
      rw [List.foldl_cons, List.foldl_cons, step_sell _ _ _ ha, stepC_sell _ _ _ _ ha]
      obtain ⟨h1, h2, h3⟩ := sellLoopC_proj t.amount (h.length + 1) h 0 0 0
      rw [h1, h3]
      exact ih _ _ _

theorem buyTotal_nil : buyTotal [] = 0 := rfl

theorem buyTotal_cons (t : Tx) (rest : List Tx) :
    buyTotal (t :: rest)
      = (match t.action with | .Buy => t.amount | .Sell => 0) + buyTotal rest := by
  simp [buyTotal]

/-- Fold-level invariant behind claim C4: the total amount held in the heap
is the initial amount, plus all Buy amounts seen, minus the total quantity
the sells removed from lots (the ghost accumulator of `stepC`). -/
theorem foldl_stepC_heapSum :
    ∀ (rows : List Tx) (h : List Lot) (p : Option ℚ) (c : ℚ),
      heapSum (rows.foldl stepC (h, p, c)).1
        = heapSum h + buyTotal rows - ((rows.foldl stepC (h, p, c)).2.2 - c) := by
  intro rows
  induction rows with
  | nil => intros; simp [buyTotal_nil]
  | cons t rest ih =>
    intro h p c
    cases ha : t.action with
    | Buy =>
      rw [List.foldl_cons, stepC_buy _ _ _ _ ha, buyTotal_cons, ha]
      rw [ih (heappush h (-t.price, t.amount)) p c, heapSum_heappush]
      ring
    | Sell =>
      rw [List.foldl_cons, stepC_sell _ _ _ _ ha, buyTotal_cons, ha]
      rw [ih _ _ _]
      have hs := sellLoopC_heapSum t.amount (h.length + 1) h 0 0 0
      rw [hs]
      ring

/-- Processing only Buys never touches the profit entry. -/
theorem foldl_step_snd_of_buys :
    ∀ (rows : List Tx) (s : List Lot × Option ℚ),
      (∀ u ∈ rows, u.action = .Buy) → (rows.foldl step s).2 = s.2 := by
  intro rows
  induction rows with
  | nil => intros; rfl
  | cons t rest ih =>
    intro s hall
    obtain ⟨hheap, hprof⟩ := s
    rw [List.foldl_cons, step_buy _ _ _ (hall t (List.mem_cons_self t rest))]
    exact ih _ (fun u hu => hall u (List.mem_cons_of_mem t hu))

/-- The profit entry exists after a fold exactly when it existed before or
some Sell was processed. -/
theorem foldl_step_snd_isSome :
    ∀ (rows : List Tx) (s : List Lot × Option ℚ),
      ((rows.foldl step s).2).isSome = true
        ↔ s.2.isSome = true ∨ ∃ t ∈ rows, t.action = Action.Sell := by
  intro rows
  induction rows with
  | nil => intro s; simp
  | cons t rest ih =>
    intro s
    obtain ⟨hheap, hprof⟩ := s
    cases ha : t.action with
    | Buy =>
      rw [List.foldl_cons, step_buy _ _ _ ha, ih]
      constructor
      · rintro (h | h)
        · exact Or.inl h
        · exact Or.inr (by obtain ⟨u, hu, hu2⟩ := h; exact ⟨u, List.mem_cons_of_mem t hu, hu2⟩)
      · rintro (h | ⟨u, hu, hu2⟩)
        · exact Or.inl h
        · rcases List.mem_cons.mp hu with rfl | hu'
          · rw [ha] at hu2; cases hu2
          · exact Or.inr ⟨u, hu', hu2⟩
    | Sell =>
      rw [List.foldl_cons, step_sell _ _ _ ha, ih]
      simp only [Option.isSome_some, true_or, true_iff]
      exact Or.inr ⟨t, List.mem_cons_self t rest, ha⟩

/-! ### Lemmas about asset grouping and lookup -/

theorem mem_uniqueAux :
    ∀ (l seen : List String) (a : String),
      a ∈ uniqueAux l seen ↔ (a ∈ l ∧ a ∉ seen) := by
  intro l
  induction l with
  | nil => intro seen a; simp [uniqueAux]
  | cons x rest ih =>
    intro seen a
    by_cases hx : x ∈ seen
    · rw [uniqueAux, if_pos hx, ih]
      by_cases hax : a = x
      · subst hax; simp [hx]
      · simp [hax]
    · rw [uniqueAux, if_neg hx]
      by_cases hax : a = x
      · subst hax; simp [List.mem_cons, hx]
      · simp only [List.mem_cons, ih, List.mem_cons]
        simp [hax]

theorem nodup_uniqueAux : ∀ (l seen : List String), (uniqueAux l seen).Nodup := by
  intro l
  induction l with
  | nil => intro seen; simp [uniqueAux]
  | cons x rest ih =>
    intro seen
    by_cases hx : x ∈ seen
    · rw [uniqueAux, if_pos hx]; exact ih seen
    · rw [uniqueAux, if_neg hx]
      refine List.nodup_cons.mpr ⟨?_, ih (x :: seen)⟩
      intro hmem
      exact ((mem_uniqueAux rest (x :: seen) x).mp hmem).2 (List.mem_cons_self x seen)

theorem nodup_uniqueAssets (records : List Tx) : (uniqueAssets records).Nodup :=
  nodup_uniqueAux _ _

theorem mem_uniqueAssets (records : List Tx) (a : String) :
    a ∈ uniqueAssets records ↔ a ∈ records.map (fun t => t.asset) := by
  rw [uniqueAssets, mem_uniqueAux]
  simp

theorem lookup_filterMap_not_mem (f : String → Option ℚ) :
    ∀ (l : List String) (a : String), a ∉ l →
      List.lookup a (l.filterMap (fun k => (f k).map (fun p => (k, p)))) = none := by
  intro l
  induction l with
  | nil => intros; rfl
  | cons k rest ih =>
    intro a ha
    have hak : a ≠ k := fun h => ha (h ▸ List.mem_cons_self k rest)
    have harest : a ∉ rest := fun h => ha (List.mem_cons_of_mem _ h)
    cases hk : f k with
    | none => rw [List.filterMap_cons, hk]; exact ih a harest
    | some p =>
      rw [List.filterMap_cons, hk]
      simp only [Option.map_some']
      rw [List.lookup_cons, beq_false_of_ne hak]
      exact ih a harest

theorem lookup_filterMap_mem (f : String → Option ℚ) :
    ∀ (l : List String), l.Nodup → ∀ a ∈ l,
      List.lookup a (l.filterMap (fun k => (f k).map (fun p => (k, p)))) = f a := by
  intro l
  induction l with
  | nil => intro _ a ha; cases ha
  | cons k rest ih =>
    intro hnd a ha
    rw [List.nodup_cons] at hnd
    rcases List.mem_cons.mp ha with rfl | ha'
    · cases hk : f a with
      | none =>
        rw [List.filterMap_cons, hk]
        exact lookup_filterMap_not_mem f rest a hnd.1
      | some p =>
        rw [List.filterMap_cons, hk]
        simp only [Option.map_some']
        rw [List.lookup_cons, beq_self_eq_true]
    · have hak : a ≠ k := fun h => hnd.1 (h ▸ ha')
      cases hk : f k with
      | none => rw [List.filterMap_cons, hk]; exact ih hnd.2 a ha'
      | some p =>
        rw [List.filterMap_cons, hk]
        simp only [Option.map_some']
        rw [List.lookup_cons, beq_false_of_ne hak]
        exact ih hnd.2 a ha'

/-- Looking an asset up in the final mapping gives exactly that asset's
engine outcome. -/
theorem lookup_process (records : List Tx) (asset : String) :
    List.lookup asset (process records)
      = if asset ∈ uniqueAssets records then assetProfit records asset else none := by
  by_cases h : asset ∈ uniqueAssets records
  · rw [if_pos h]
    exact lookup_filterMap_mem (assetProfit records) _ (nodup_uniqueAssets records) asset h
  · rw [if_neg h]
    exact lookup_filterMap_not_mem (assetProfit records) _ asset h

/-- The two action strings order as expected. -/
theorem buy_lt_sell : ("Buy" : String) < "Sell" := by
  rw [String.lt_iff_toList_lt]
  decide

/-! ### Claim theorems -/

/-- C1: the per-sell loop pops the highest-price open lot, adds
`price_bought * min(A - consumed, amount_bought)` to the cost basis,
increments the consumed counter by the full `amount_bought`, and pushes back
`(price_bought, amount_bought - needed)` when positive; profit is `A*P`
minus the cost basis.  On buys `[(10,5), (20,3)]` then sell `(amt=4,
price=15)`: the heap after the pushes holds `(20,3)` first, the loop ends
with consumed `8`, cost basis `70`, the pushed-back lot `(10,4)` (stored as
`(-10,4)`), and the recorded profit is `-10`. -/
theorem sell_matching_loop_example :
    heappush (heappush [] (-10, 5)) (-20, 3) = [(-20, 3), (-10, 5)]
    ∧ sellLoop 4 3 [(-20, 3), (-10, 5)] 0 0 = ([(-10, 4)], 8, 70)
    ∧ process [⟨Action.Buy, 5, "BTC", 10, 0⟩, ⟨Action.Buy, 3, "BTC", 20, 1⟩,
        ⟨Action.Sell, 4, "BTC", 15, 2⟩] = [("BTC", -10)] := by
  refine ⟨?_, ?_, ?_⟩
  · norm_num [heappush, List.orderedInsert, lotR]
  · norm_num [sellLoop, heappush, List.orderedInsert, lotR, min_def]
  · norm_num [process, uniqueAssets, uniqueAux, assetProfit, sortedRows, step,
      sellLoop, heappush, min_def, List.orderedInsert, lotR, txr, Tx.sortKey,
      List.insertionSort, List.filter, List.filterMap, Action.str]

/-- C3: contrary to the claim, the pipeline on zero transaction records does
not return an empty mapping — it fails: the zero-record parse produces a
column-less frame and `data["asset"]` at src/main.py line 27 raises
`KeyError` (an entirely empty log file already fails at `next(file)`,
line 80).  Evaluating the code at the failing input: `processRun []` is the
`KeyError` outcome.  Only the engine downstream of that access would have
produced the empty mapping and total 0 the claim describes. -/
theorem zero_transactions_pipeline_fails :
    processRun [] = Except.error "KeyError: asset"
    ∧ process [] = [] ∧ totalProfit [] = 0 :=
  ⟨rfl, rfl, rfl⟩

/-- C4: at every point during the processing of an asset's sorted record
sequence (`rows` ranges over every prefix, in particular over the whole
sequence) the total remaining amount over all open lots equals the
cumulative amount bought minus the cumulative amount the sells removed from
lots (the ghost accumulator of `stepC`); and the instrumented fold computes
the same heap and profit entry as the engine's fold. -/
theorem heap_amount_invariant :
    ∀ rows : List Tx,
      heapSum (rows.foldl stepC ([], none, 0)).1
          = buyTotal rows - (rows.foldl stepC ([], none, 0)).2.2
      ∧ (rows.foldl step ([], none)).1 = (rows.foldl stepC ([], none, 0)).1
      ∧ (rows.foldl step ([], none)).2 = (rows.foldl stepC ([], none, 0)).2.1 := by
  intro rows
  refine ⟨?_, (foldl_step_eq_stepC rows [] none 0).1, (foldl_step_eq_stepC rows [] none 0).2⟩
  have h := foldl_stepC_heapSum rows [] none 0
  rw [h, heapSum_nil]
  ring

/-- C5: an asset whose grouped record sequence has exactly one record is
skipped and contributes no entry to the result mapping. -/
theorem single_record_asset_skipped :
    ∀ (records : List Tx) (asset : String),
      (sortedRows records asset).length = 1 →
      List.lookup asset (process records) = none := by
  intro records asset hlen
  rw [lookup_process]
  by_cases hmem : asset ∈ uniqueAssets records
  · rw [if_pos hmem]
    simp only [assetProfit]
    rw [if_pos hlen]
  · rw [if_neg hmem]

theorem single_record_asset_skipped_witness :
    List.lookup "XRP" (process [⟨Action.Buy, 1, "XRP", 2, 0⟩]) = none :=
  single_record_asset_skipped [⟨Action.Buy, 1, "XRP", 2, 0⟩] "XRP" rfl

/-- C6: a Sell processed on an empty lot structure leaves the heap empty,
matches nothing (cost basis 0) and records profit `A*P` exactly; in general
the loop on an empty heap returns its accumulators unchanged, so the cost
basis keeps only what was matched before the heap emptied and the profit is
still `A*P` minus that partial cost basis. -/
theorem sell_on_empty_heap :
    ∀ (t : Tx) (pr : Option ℚ) (amount accA accT : ℚ) (fuel : ℕ),
      t.action = Action.Sell →
      step ([], pr) t = ([], some (t.amount * t.price))
      ∧ sellLoop amount fuel [] accA accT = ([], accA, accT) := by
  intro t pr amount accA accT fuel h
  refine ⟨?_, sellLoop_nil amount fuel accA accT⟩
  rw [step_sell [] pr t h, sellLoop_nil]
  norm_num

theorem sell_on_empty_heap_witness :
    step ([], none) ⟨Action.Sell, 3, "ETH", 7, 0⟩ = ([], some (3 * 7))
    ∧ sellLoop 2 5 [] 1 1 = ([], 1, 1) :=
  sell_on_empty_heap ⟨Action.Sell, 3, "ETH", 7, 0⟩ none 2 1 1 5 rfl

/-- C9: the per-sell loop terminates: its result is independent of the fuel
once the fuel reaches `number of open lots + 1` (so it runs at most that many
iterations), and after an iteration that pushes back a positive remainder the
loop exits immediately (the consumed counter, incremented by the whole
`amount_bought`, has already reached the sell amount), so at most one
partial-lot push-back occurs per sell. -/
theorem sell_loop_terminates :
    ∀ (amount : ℚ) (fuel₁ fuel₂ : ℕ) (max_heap : List Lot) (accA accT np ab : ℚ)
      (rest : List Lot) (f : ℕ),
      (max_heap.length + 1 ≤ fuel₁ → max_heap.length + 1 ≤ fuel₂ →
        sellLoop amount fuel₁ max_heap accA accT = sellLoop amount fuel₂ max_heap accA accT)
      ∧ (accA < amount → 0 < ab - min (amount - accA) ab →
          sellLoop amount (f + 2) ((np, ab) :: rest) accA accT
            = (heappush rest (np, ab - min (amount - accA) ab), accA + ab,
                accT + (-np) * min (amount - accA) ab)) := by
  intro amount fuel₁ fuel₂ max_heap accA accT np ab rest f
  constructor
  · intro h1 h2
    rw [sellLoop_fuel amount fuel₁ max_heap accA accT h1,
      sellLoop_fuel amount fuel₂ max_heap accA accT h2]
  · intro hlt hrem
    have hkey := sellLoop_cons amount accA accT np ab rest (f + 1) hlt
    rw [if_pos hrem] at hkey
    have hge := consumed_overshoots amount accA ab hrem
    rw [sellLoop_exit _ _ _ _ _ hge] at hkey
    exact hkey

theorem sell_loop_terminates_witness :
    sellLoop 4 3 [(-20, 3), (-10, 5)] 0 0 = sellLoop 4 7 [(-20, 3), (-10, 5)] 0 0
    ∧ sellLoop 4 2 [(-10, 5)] 0 0
        = (heappush [] (-10, 5 - min (4 - 0) 5), 0 + 5, 0 + (-(-10)) * min (4 - 0) 5) := by
  constructor
  · exact (sell_loop_terminates 4 3 7 [(-20, 3), (-10, 5)] 0 0 0 0 [] 0).1
      (by norm_num) (by norm_num)
  · exact (sell_loop_terminates 4 0 0 [(-10, 5)] 0 0 (-10) 5 [] 0).2
      (by norm_num) (by norm_num [min_def])

/-- C2: when an asset's sorted sequence ends with a Sell `t` followed only by
Buys, the entry stored for the asset in the final mapping is exactly the
profit computed when `t` was processed (the fold up to and including `t`) —
each Sell overwrites the entry, so only the last Sell's profit survives, not
a sum over sells. -/
theorem last_sell_profit_wins :
    ∀ (records : List Tx) (asset : String) (pre post : List Tx) (t : Tx),
      asset ∈ uniqueAssets records →
      sortedRows records asset = pre ++ t :: post →
      (sortedRows records asset).length ≠ 1 →
      t.action = Action.Sell →
      (∀ u ∈ post, u.action = Action.Buy) →
      List.lookup asset (process records) = ((pre ++ [t]).foldl step ([], none)).2
      ∧ ∃ p : ℚ, List.lookup asset (process records) = some p := by
  intro records asset pre post t hmem hdecomp hlen hsell hpost
  have h1 : List.lookup asset (process records) = ((pre ++ [t]).foldl step ([], none)).2 := by
    rw [lookup_process, if_pos hmem]
    simp only [assetProfit]
    rw [if_neg hlen, hdecomp, List.foldl_append, List.foldl_cons,
      foldl_step_snd_of_buys post _ hpost, List.foldl_append, List.foldl_cons,
      List.foldl_nil]
  refine ⟨h1, ?_⟩
  rw [h1, List.foldl_append, List.foldl_cons, List.foldl_nil]
  rcases hs : pre.foldl step ([], none) with ⟨hp, pr⟩
  rw [step_sell hp pr t hsell]
  exact ⟨_, rfl⟩

theorem last_sell_profit_wins_witness :
    List.lookup "BTC"
        (process [⟨Action.Buy, 5, "BTC", 10, 0⟩, ⟨Action.Sell, 2, "BTC", 20, 1⟩,
          ⟨Action.Sell, 3, "BTC", 30, 2⟩])
      = ((([⟨Action.Buy, 5, "BTC", 10, 0⟩, ⟨Action.Sell, 2, "BTC", 20, 1⟩]
          ++ [⟨Action.Sell, 3, "BTC", 30, 2⟩] : List Tx)).foldl step ([], none)).2
    ∧ ∃ p : ℚ,
        List.lookup "BTC"
            (process [⟨Action.Buy, 5, "BTC", 10, 0⟩, ⟨Action.Sell, 2, "BTC", 20, 1⟩,
              ⟨Action.Sell, 3, "BTC", 30, 2⟩])
          = some p :=
  last_sell_profit_wins
    [Tx.mk Action.Buy 5 "BTC" 10 0, Tx.mk Action.Sell 2 "BTC" 20 1,
      Tx.mk Action.Sell 3 "BTC" 30 2]
    "BTC"
    [Tx.mk Action.Buy 5 "BTC" 10 0, Tx.mk Action.Sell 2 "BTC" 20 1]
    []
    (Tx.mk Action.Sell 3 "BTC" 30 2)
    (by decide) rfl (by decide) rfl (by simp)

/-- C7: each asset's records are processed in ascending (date, action)
order — date primary, the action string (lexicographically, with
`"Buy" < "Sell"`) as tie-break — and the processed sequence is exactly a
permutation of the asset's records, so a Buy sharing a timestamp with a Sell
precedes it and its lot is available to that Sell. -/
theorem records_sorted_by_date_action :
    ∀ (records : List Tx) (asset : String),
      List.Sorted
        (fun a b : Tx => a.date < b.date ∨
          (a.date = b.date ∧ (a.action.str < b.action.str ∨ a.action.str = b.action.str)))
        (sortedRows records asset)
      ∧ (sortedRows records asset).Perm (records.filter (fun t => t.asset == asset)) := by
  intro records asset
  constructor
  · have hs := List.sorted_insertionSort txr (records.filter (fun t => t.asset == asset))
    refine List.Pairwise.imp ?_ hs
    intro a b hab
    have hk : a.sortKey ≤ b.sortKey := hab
    cases ha : a.action <;> cases hb : b.action <;>
      simp only [Tx.sortKey, ha, hb] at hk <;> simp only [ha, hb, Action.str]
    · have hd : a.date < b.date ∨ a.date = b.date := by omega
      rcases hd with h | h
      · exact Or.inl h
      · exact Or.inr ⟨h, Or.inr (by trivial)⟩
    · have hd : a.date < b.date ∨ a.date = b.date := by omega
      rcases hd with h | h
      · exact Or.inl h
      · exact Or.inr ⟨h, Or.inl buy_lt_sell⟩
    · exact Or.inl (by omega)
    · have hd : a.date < b.date ∨ a.date = b.date := by omega
      rcases hd with h | h
      · exact Or.inl h
      · exact Or.inr ⟨h, Or.inr (by trivial)⟩
  · exact List.perm_insertionSort txr _

/-- C8: an asset has an entry in the final mapping exactly when it occurs in
the record list, its group is not a single row (not skipped), and its sorted
group contains at least one Sell — i.e. exactly when at least one Sell was
processed for it; in particular a multi-record all-Buy asset has no entry. -/
theorem entry_iff_sell_processed :
    ∀ (records : List Tx) (asset : String),
      (List.lookup asset (process records)).isSome = true
        ↔ (asset ∈ uniqueAssets records ∧ (sortedRows records asset).length ≠ 1
            ∧ ∃ t ∈ sortedRows records asset, t.action = Action.Sell) := by
  intro records asset
  rw [lookup_process]
  by_cases hmem : asset ∈ uniqueAssets records
  · rw [if_pos hmem]
    simp only [assetProfit]
    by_cases hlen : (sortedRows records asset).length = 1
    · rw [if_pos hlen]
      simp [hlen]
    · rw [if_neg hlen, foldl_step_snd_isSome]
      simp [hmem, hlen]
  · rw [if_neg hmem]
    simp [hmem]

/-- Pushing any sequence of lots onto an (observationally modelled) heap
keeps it sorted by the heap order. -/
theorem sorted_foldl_heappush :
    ∀ (pushes : List Lot) (h : List Lot),
      List.Sorted lotR h → List.Sorted lotR (pushes.foldl heappush h) := by
  intro pushes
  induction pushes with
  | nil => intro h hs; exact hs
  | cons x rest ih =>
    intro h hs
    rw [List.foldl_cons]
    exact ih _ (hs.orderedInsert x h)

/-- C10: lots are stored as `(-price, amount)` and `heappop` returns the
least entry under tuple comparison, so whenever the popped lot shares its
price with another open lot, the popped lot's amount is the smallest — ties
are resolved by amount, not by insertion order (the statement quantifies over
every push order). -/
theorem heap_tie_smallest_amount :
    ∀ (pushes : List Lot) (x : Lot) (rest : List Lot),
      heappop (pushes.foldl heappush []) = some (x, rest) →
      ∀ y ∈ rest, lotR x y ∧ (x.1 = y.1 → x.2 ≤ y.2) := by
  intro pushes x rest hpop y hy
  have hs : List.Sorted lotR (pushes.foldl heappush []) :=
    sorted_foldl_heappush pushes [] List.sorted_nil
  cases hfold : pushes.foldl heappush [] with
  | nil => rw [hfold] at hpop; simp [heappop] at hpop
  | cons z zs =>
    rw [hfold] at hpop hs
    simp only [heappop, Option.some.injEq, Prod.mk.injEq] at hpop
    obtain ⟨hzx, hzr⟩ := hpop
    subst hzx
    subst hzr
    have hrel := List.rel_of_sorted_cons hs y hy
    refine ⟨hrel, fun heq => ?_⟩
    rcases hrel with hlt | ⟨heq2, hle⟩
    · exact absurd heq (ne_of_lt hlt)
    · exact hle

theorem heap_tie_smallest_amount_witness :
    heappop ([((-10 : ℚ), (5 : ℚ)), (-10, 3)].foldl heappush [])
        = some (((-10 : ℚ), (3 : ℚ)), [((-10 : ℚ), (5 : ℚ))])
    ∧ lotR (-10, 3) (-10, 5)
    ∧ (((-10 : ℚ), (3 : ℚ)).1 = ((-10 : ℚ), (5 : ℚ)).1
        → ((-10 : ℚ), (3 : ℚ)).2 ≤ ((-10 : ℚ), (5 : ℚ)).2) := by
  have hpop : heappop ([((-10 : ℚ), (5 : ℚ)), (-10, 3)].foldl heappush [])
      = some ((-10, 3), [(-10, 5)]) := by
    norm_num [List.foldl, heappush, List.orderedInsert, lotR, heappop]
  have hmain := heap_tie_smallest_amount [(-10, 5), (-10, 3)] (-10, 3) [(-10, 5)]
    hpop (-10, 5) (by simp)
  exact ⟨hpop, hmain.1, hmain.2⟩

end CryptoTaxes
